import Mathlib

/-!
Verification development for the Duarte-Scalper market-data pipeline.

The development shallowly embeds the three Python components the claims are
about:

* `RealTimeDataCollector` (src/python/data_collection/realtime_collector.py):
  per-symbol tick ring buffer, the tick-to-OHLC minute-bar state machine
  (`_update_ohlc_buffer`), the mid-price based tick direction
  (`_calculate_tick_direction`), and the bounded ingestion queue.
* `HistoricalDataCollector` (src/python/data_collection/historical_collector.py):
  the chunked fetch-with-retry loop (`collect_historical_ticks`) over an
  abstract fetch oracle, and the diff-based tick direction.
* `TapeReadingFeatures` (src/python/feature_engineering/tape_reading_features.py):
  validation, preparation (sort, derived columns), the four rolling-window
  feature families, the left-merges on (time, symbol) and the gap filling.

Modelling conventions: prices and volumes are rationals (the Python floats),
times are rationals in seconds for the extractor and natural-number seconds
for the real-time collector (minute bars only need the minute floor), symbols
are naturals. A pandas NaN (and, coarsely, an infinity produced by a division
by zero) is `Option.none`; float `sqrt` is modelled by the rational `Rat.sqrt`
approximation. All state machines are per symbol, matching the per-symbol
buffer dictionaries of the source.
-/

namespace DS

/-! ### Real-time collector: ticks and the OHLC minute-bar state machine -/

/-- A tick as assembled by `RealTimeDataCollector._collect_single_tick`:
bid/ask/last quotes, the real volume, and the arrival time in whole seconds
(the collector only ever uses the minute floor of the time). -/
structure RTick where
  time : Nat
  bid : ℚ
  ask : ℚ
  last : ℚ
  volume_real : ℚ
  deriving DecidableEq

/-- Derived mid-price, `(tick.bid + tick.ask) / 2`. -/
def RTick.mid (t : RTick) : ℚ := (t.bid + t.ask) / 2

/-- Derived spread, `tick.ask - tick.bid`. -/
def RTick.spread (t : RTick) : ℚ := t.ask - t.bid

/-- `current_time.replace(second=0, microsecond=0)`: the containing minute,
identified by its index since the epoch. -/
def minuteOf (time : Nat) : Nat := time / 60

/-- The in-progress bar of `_update_ohlc_buffer`: the fields of the
per-symbol `ohlc_buffers[symbol]` dict that describe the currently open
minute (`current_minute`, open/high/low/close, volume, tick_count,
total_price). -/
structure OpenBar where
  minute : Nat
  open_price : ℚ
  high : ℚ
  low : ℚ
  close : ℚ
  volume : ℚ
  tick_count : Nat
  total_price : ℚ
  deriving DecidableEq

/-- A sealed bar as appended to `completed_bars`. -/
structure CompletedBar where
  time : Nat
  open_price : ℚ
  high : ℚ
  low : ℚ
  close : ℚ
  volume : ℚ
  tick_count : Nat
  typical_price : ℚ
  deriving DecidableEq

/-- Per-symbol OHLC aggregation state: at most one open bar
(`current : Option OpenBar` is the `current_minute is None` discrimination of
the buffer dict) plus the completed-bar ring. -/
structure OhlcState where
  current : Option OpenBar
  completedBars : List CompletedBar
  deriving DecidableEq

/-- Capacity of the completed-bar ring, `deque(maxlen=1440)`. -/
def completedBarsCapacity : Nat := 1440

/-- Append to a bounded deque: evict the oldest entry when full. -/
def ringAppend (bars : List CompletedBar) (b : CompletedBar) : List CompletedBar :=
  if bars.length < completedBarsCapacity then bars ++ [b] else bars.tail ++ [b]

/-- Seal the open bar (the `completed_bar` dict built in
`_update_ohlc_buffer`); `typical_price` is `total_price / max(tick_count, 1)`. -/
def sealBar (c : OpenBar) : CompletedBar :=
  { time := c.minute
    open_price := c.open_price
    high := c.high
    low := c.low
    close := c.close
    volume := c.volume
    tick_count := c.tick_count
    typical_price := c.total_price / ((max c.tick_count 1 : Nat) : ℚ) }

/-- Open a new bar seeded from a tick, as in the `# Iniciar nova barra`
block (prices set to the tick's mid-price, counters zeroed). -/
def newBar (t : RTick) : OpenBar :=
  { minute := minuteOf t.time
    open_price := t.mid
    high := t.mid
    low := t.mid
    close := t.mid
    volume := 0
    tick_count := 0
    total_price := 0 }

/-- The unconditional `# Atualizar barra atual` block: fold one tick into the
open bar. -/
def updateBar (c : OpenBar) (t : RTick) : OpenBar :=
  { c with
    high := max c.high t.mid
    low := min c.low t.mid
    close := t.mid
    volume := c.volume + t.volume_real
    tick_count := c.tick_count + 1
    total_price := c.total_price + t.mid }

/-- One step of `_update_ohlc_buffer`: if the tick's minute differs from the
open bar's minute, seal the open bar (appending it to the ring) and open a
new one seeded from the tick; then fold the tick into the open bar. -/
def updateOhlc (s : OhlcState) (t : RTick) : OhlcState :=
  match s.current with
  | none => { s with current := some (updateBar (newBar t) t) }
  | some c =>
      if c.minute = minuteOf t.time then
        { s with current := some (updateBar c t) }
      else
        { current := some (updateBar (newBar t) t)
          completedBars := ringAppend s.completedBars (sealBar c) }

/-- The empty per-symbol OHLC state set up by `_initialize_buffers`. -/
def initOhlc : OhlcState := { current := none, completedBars := [] }

/-- Process a stream of ticks for one symbol through `_update_ohlc_buffer`. -/
def processTicks (ts : List RTick) : OhlcState := ts.foldl updateOhlc initOhlc

/-- Ticks arriving in non-decreasing timestamp order. -/
def SortedTicks (ts : List RTick) : Prop :=
  ts.Pairwise (fun a b => a.time ≤ b.time)

/-- Number of open bars of a state (0 or 1 by construction). -/
def openBarCount (s : OhlcState) : Nat :=
  match s.current with
  | none => 0
  | some _ => 1

/-! ### Real-time collector: tick direction from the ring buffer -/

/-- Capacity of the per-symbol tick ring, `deque(maxlen=self.buffer_size)`
with `buffer_size = 10000`. -/
def tickBufferSize : Nat := 10000

/-- Append a tick to the bounded ring buffer (oldest evicted when full). -/
def bufAppend (buf : List RTick) (t : RTick) : List RTick :=
  if buf.length < tickBufferSize then buf ++ [t] else buf.tail ++ [t]

/-- `RealTimeDataCollector._calculate_tick_direction`: called after the tick
was appended to the buffer; returns 0 when the buffer holds fewer than two
ticks, otherwise compares the tick's mid-price with the mid-price of
`buffer[-2]` (the previous tick). Note the comparison uses `mid_price`, not
`last`. -/
def rtDirection (buf : List RTick) (t : RTick) : Int :=
  if buf.length < 2 then 0
  else
    let prev := buf.getD (buf.length - 2) t
    if prev.mid < t.mid then 1
    else if t.mid < prev.mid then -1
    else 0

/-- Worker loop over a tick stream: `_process_tick` appends the tick to the
ring and then assigns its direction. Returns the directions in stream
order. -/
def rtDirectionsGo : List RTick → List RTick → List Int
  | _, [] => []
  | buf, t :: rest =>
      rtDirection (bufAppend buf t) t :: rtDirectionsGo (bufAppend buf t) rest

/-- Directions assigned by the real-time collector to a whole stream,
starting from the empty ring buffer. -/
def rtDirections (ts : List RTick) : List Int := rtDirectionsGo [] ts

/-! ### Real-time collector: bounded ingestion queue -/

/-- Capacity of `self.tick_queue = queue.Queue(maxsize=50000)`. -/
def tickQueueMaxsize : Nat := 50000

/-- Occupancy of the ingestion queue plus the `collection_errors` counter of
the stats dict. -/
structure QueueState where
  queued : Nat
  collectionErrors : Nat
  deriving DecidableEq

/-- One enqueue attempt from the poll loop: `tick_queue.put(tick, block=False)`
raises `queue.Full` when the queue is at capacity; the surrounding
`except` block of `_collection_loop` catches it, increments
`collection_errors` and continues — the function is total, no exception
escapes the loop. -/
def enqueueTick (s : QueueState) : QueueState :=
  if s.queued < tickQueueMaxsize then { s with queued := s.queued + 1 }
  else { s with collectionErrors := s.collectionErrors + 1 }

/-- A burst of `n` enqueue attempts with no consumer draining the queue. -/
def enqueueBurst : Nat → QueueState → QueueState
  | 0, s => s
  | n + 1, s => enqueueBurst n (enqueueTick s)

/-! ### Pandas-style diff-based tick direction

`HistoricalDataCollector._calculate_tick_direction` and
`TapeReadingFeatures._calculate_tick_direction` both compute
`price_diff = last.diff()`, set direction to 1 where the diff is positive,
-1 where negative, 0 elsewhere (including the NaN at index 0), and force
the first entry to 0. -/

/-- Sign in the sense of the two `price_diff` comparisons. -/
def signQ (q : ℚ) : Int := if 0 < q then 1 else if q < 0 then -1 else 0

/-- Signs of consecutive differences, given the previous value. -/
def diffSigns : ℚ → List ℚ → List Int
  | _, [] => []
  | p, x :: xs => signQ (x - p) :: diffSigns x xs

/-- Directions of a series of last prices: the first tick is neutral, each
later tick carries the sign of its difference to the previous value. -/
def directionOfLasts : List ℚ → List Int
  | [] => []
  | x :: xs => 0 :: diffSigns x xs

/-! ### Historical collector -/

/-- A raw historical tick row as returned by the fetch. -/
structure HistTick where
  time : ℚ
  bid : ℚ
  ask : ℚ
  last : ℚ
  deriving DecidableEq

/-- The last-price series used by
`HistoricalDataCollector._calculate_tick_direction`: the `last` column if the
frame has one, otherwise the computed mid-price column. -/
def histLasts (hasLast : Bool) (ts : List HistTick) : List ℚ :=
  if hasLast then ts.map (·.last) else ts.map (fun t => (t.bid + t.ask) / 2)

/-- `HistoricalDataCollector._calculate_tick_direction` over a chunk. -/
def histDirections (hasLast : Bool) (ts : List HistTick) : List Int :=
  directionOfLasts (histLasts hasLast ts)

/-- Result of one `mt5.copy_ticks_range` call (the external fetch):
a tick list, a `None` answer, or a raised exception. -/
inductive FetchResult
  | ok (ticks : List HistTick)
  | nodata
  | err
  deriving DecidableEq

/-- Outcome of the 3-attempt loop for one chunk. -/
inductive ChunkOutcome
  | success (ticks : List HistTick)
  | skipped
  | failed
  deriving DecidableEq

/-- The `for attempt in range(3)` retry loop of `collect_historical_ticks`,
over a fetch oracle indexed by chunk and attempt number. A `None` answer
logs a warning and breaks out of the attempt loop without data (the chunk is
skipped); an exception on attempts 0 and 1 sleeps the fixed 5-second
back-off and retries; an exception on attempt 2 fails the chunk. -/
def collectChunk (fetch : Nat → Nat → FetchResult) (chunk : Nat) : ChunkOutcome :=
  match fetch chunk 0 with
  | .ok ts => .success ts
  | .nodata => .skipped
  | .err =>
      match fetch chunk 1 with
      | .ok ts => .success ts
      | .nodata => .skipped
      | .err =>
          match fetch chunk 2 with
          | .ok ts => .success ts
          | .nodata => .skipped
          | .err => .failed

/-- `drop_duplicates(['time', 'bid', 'ask'])`: keep the first row for each
(time, bid, ask) key. -/
def dedupGo (seen : List (ℚ × ℚ × ℚ)) : List HistTick → List HistTick
  | [] => []
  | t :: ts =>
      if (t.time, t.bid, t.ask) ∈ seen then dedupGo seen ts
      else t :: dedupGo ((t.time, t.bid, t.ask) :: seen) ts

/-- Deduplicate the consolidated tick frame. -/
def dropDuplicates (ts : List HistTick) : List HistTick := dedupGo [] ts

/-- Ordering of historical ticks by time, for `sort_values('time')`. -/
def histTimeLE (a b : HistTick) : Prop := a.time ≤ b.time

instance : DecidableRel histTimeLE :=
  fun a b => inferInstanceAs (Decidable (a.time ≤ b.time))

/-- `final_df.sort_values('time')`. -/
def sortHistByTime (ts : List HistTick) : List HistTick :=
  List.insertionSort histTimeLE ts

/-- Consolidation after the chunk loop: if any chunk produced data,
concatenate, deduplicate and sort, otherwise report failure (the
`No ticks collected` branch returns False). -/
def chtFinalize (acc : List (List HistTick)) : Option (List HistTick) :=
  if acc.isEmpty then none
  else some (sortHistByTime (dropDuplicates (acc.foldr (· ++ ·) [])))

/-- The `while current_date < date_to` chunk loop of
`collect_historical_ticks`, by remaining-chunk fuel. A failed chunk (three
exhausted attempts) makes the whole call return False (`none`): no further
chunk of the symbol is fetched and nothing is saved. The per-chunk derived
columns (direction via `histDirections`, spread) do not affect control flow
and are left to the tick records. -/
def chtGo (fetch : Nat → Nat → FetchResult) :
    Nat → Nat → List (List HistTick) → Option (List HistTick)
  | 0, _, acc => chtFinalize acc
  | fuel + 1, i, acc =>
      match collectChunk fetch i with
      | .success ts => chtGo fetch fuel (i + 1) (acc ++ [ts])
      | .skipped => chtGo fetch fuel (i + 1) acc
      | .failed => none

/-- `collect_historical_ticks` for a symbol whose date range splits into
`numChunks` chunks: `some ticks` models returning True after saving, `none`
models returning False. -/
def collectHistoricalTicks (fetch : Nat → Nat → FetchResult) (numChunks : Nat) :
    Option (List HistTick) :=
  chtGo fetch numChunks 0 []

/-! ### Tape-reading feature extractor: input model and validation -/

/-- Column-presence flags of the input tick frame. -/
structure ColFlags where
  hasTime : Bool
  hasBid : Bool
  hasAsk : Bool
  hasSymbol : Bool
  hasLast : Bool
  hasVolume : Bool
  hasDirection : Bool
  deriving DecidableEq

/-- A raw input tick row; the field values of absent optional columns are
ignored by the pipeline. Time is in seconds. -/
structure RawRow where
  time : ℚ
  bid : ℚ
  ask : ℚ
  symbol : Nat
  last : ℚ
  volume : ℚ
  direction : Int
  deriving DecidableEq

/-- An input tick frame: which columns it has, and its rows. -/
structure TickBatch where
  cols : ColFlags
  rows : List RawRow
  deriving DecidableEq

/-- `TapeReadingFeatures._validate_tick_data`: the required columns
{time, bid, ask, symbol} must be present and the frame must have at least
100 rows; a time column that is not monotonically increasing only logs a
warning and does not fail validation. -/
def validateTickData (b : TickBatch) : Bool :=
  b.cols.hasTime && b.cols.hasBid && b.cols.hasAsk && b.cols.hasSymbol &&
    decide (100 ≤ b.rows.length)

/-- Ordering of raw rows by time, for `df.sort_values('time')`. -/
def rawTimeLE (a b : RawRow) : Prop := a.time ≤ b.time

instance : DecidableRel rawTimeLE :=
  fun a b => inferInstanceAs (Decidable (a.time ≤ b.time))

instance : IsTotal RawRow rawTimeLE :=
  ⟨fun a b => le_total a.time b.time⟩

instance : IsTrans RawRow rawTimeLE :=
  ⟨fun _ _ _ h1 h2 => le_trans h1 h2⟩

/-- The sort performed at the top of `_prepare_tick_data`. -/
def sortRawByTime (rows : List RawRow) : List RawRow :=
  List.insertionSort rawTimeLE rows

/-- A prepared tick row, the output of `_prepare_tick_data`: derived
mid-price and spread, the last price (falling back to the mid-price column
when the frame has no `last` column), the direction (computed when absent),
the volume (defaulted to 1 when absent), and the timestamp in seconds. -/
structure PrepRow where
  time : ℚ
  symbol : Nat
  bid : ℚ
  ask : ℚ
  mid_price : ℚ
  spread : ℚ
  last : ℚ
  volume : ℚ
  direction : Int
  timestamp : ℚ
  deriving DecidableEq

/-- `TapeReadingFeatures._calculate_tick_direction`: identical diff-based
computation to the historical collector, over the prepared last column. -/
def tapeDirections (lasts : List ℚ) : List Int := directionOfLasts lasts

/-- Assemble one prepared row from a sorted raw row and its effective last
price and direction. -/
def buildPrepRow (cols : ColFlags) (r : RawRow) (l : ℚ) (d : Int) : PrepRow :=
  { time := r.time
    symbol := r.symbol
    bid := r.bid
    ask := r.ask
    mid_price := (r.bid + r.ask) / 2
    spread := r.ask - r.bid
    last := l
    volume := if cols.hasVolume then r.volume else 1
    direction := d
    timestamp := r.time }

/-- `_prepare_tick_data` after the sort: derived columns over the sorted
rows. -/
def prepareRows (cols : ColFlags) (sorted : List RawRow) : List PrepRow :=
  let mids := sorted.map (fun r => (r.bid + r.ask) / 2)
  let lasts := if cols.hasLast then sorted.map (·.last) else mids
  let dirs := if cols.hasDirection then sorted.map (·.direction) else tapeDirections lasts
  (sorted.zip (lasts.zip dirs)).map (fun p => buildPrepRow cols p.1 p.2.1 p.2.2)

/-- `_prepare_tick_data`: sort by time, then derive columns. -/
def prepareTickData (b : TickBatch) : List PrepRow :=
  prepareRows b.cols (sortRawByTime b.rows)

/-! ### Feature extractor: numeric helpers (pandas aggregations over ℚ) -/

/-- Mean of a series (division by zero yields 0 in ℚ; every use is guarded
by a window-size gate as in the source). -/
def qmean (l : List ℚ) : ℚ := l.sum / (l.length : ℚ)

/-- Maximum of a non-empty series (0 on the empty series). -/
def qmaxList : List ℚ → ℚ
  | [] => 0
  | x :: xs => xs.foldl max x

/-- Minimum of a non-empty series (0 on the empty series). -/
def qminList : List ℚ → ℚ
  | [] => 0
  | x :: xs => xs.foldl min x

/-- Sample variance (pandas `std` uses ddof = 1). -/
def qvarSample (l : List ℚ) : ℚ :=
  ((l.map (fun x => (x - qmean l) ^ 2)).sum) / ((l.length : ℚ) - 1)

/-- Sample standard deviation; float `sqrt` modelled by `Rat.sqrt`. -/
def qstd (l : List ℚ) : ℚ := Rat.sqrt (qvarSample l)

/-- Consecutive differences `x.diff().dropna()`. -/
def qdiffs : List ℚ → List ℚ
  | [] => []
  | [_] => []
  | x :: y :: xs => (y - x) :: qdiffs (y :: xs)

/-- Number of adjacent unequal pairs of a series. -/
def adjCount [DecidableEq α] : List α → Nat
  | [] => 0
  | [_] => 0
  | x :: y :: xs => (if x = y then 0 else 1) + adjCount (y :: xs)

/-- `(s.diff() != 0).sum()` over a non-empty series: the leading NaN of
`diff` compares unequal to 0 in pandas and contributes 1. -/
def diffNeZeroCount [DecidableEq α] : List α → Nat
  | [] => 0
  | x :: xs => 1 + adjCount (x :: xs)

/-- Difference of two optional values, NaN-propagating. -/
def optSub : Option ℚ → Option ℚ → Option ℚ
  | some a, some b => some (a - b)
  | _, _ => none

/-! ### Feature extractor: rolling windows and the four families -/

/-- `min_ticks_per_window = 5`, passed to every rolling window as
`min_periods`. -/
def minTicksPerWindow : Nat := 5

/-- `time_windows = [10, 30, 60, 300, 600]` seconds. -/
def timeWindows : List ℚ := [10, 30, 60, 300, 600]

/-- `volume_ma_period = 50`. -/
def volumeMaPeriod : Nat := 50

/-- Row used as the `getD`/`headD` default; never selected by the guarded
uses. -/
def defaultPrep : PrepRow :=
  { time := 0, symbol := 0, bid := 0, ask := 0, mid_price := 0, spread := 0
    last := 0, volume := 0, direction := 0, timestamp := 0 }

/-- The pandas time-based rolling window of
`df.groupby('symbol').rolling(window=f'{w}s', on='time')` at row `i`
(with row value `r`): rows of the same symbol among the first `i + 1` rows
whose time lies in the left-open interval `(r.time - w, r.time]`. -/
def winAt (ps : List PrepRow) (i : Nat) (r : PrepRow) (w : ℚ) : List PrepRow :=
  (ps.take (i + 1)).filter (fun x => decide (x.symbol = r.symbol ∧ r.time - w < x.time))

/-- The `min_periods` gate: a window with fewer than 5 rows yields NaN. -/
def gated (win : List PrepRow) (v : ℚ) : Option ℚ :=
  if win.length < minTicksPerWindow then none else some v

/-- `price_velocity`: `(x.iloc[-1] - x.iloc[0] if len(x) > 1 else 0) / w`
over the window's last prices. -/
def priceVelocityAt (ps : List PrepRow) (w : ℚ) (i : Nat) : Option ℚ :=
  match ps.get? i with
  | none => none
  | some r =>
      let win := winAt ps i r w
      gated win
        ((if 1 < win.length then (win.getLastD defaultPrep).last - (win.headD defaultPrep).last
          else 0) / w)

/-- `returns = df.groupby('symbol')['last'].pct_change()` at row `i`:
relative change against the previous row of the same symbol (NaN for the
group's first row or a zero previous price). -/
def returnAt (ps : List PrepRow) (i : Nat) : Option ℚ :=
  match ps.get? i with
  | none => none
  | some r =>
      match ((ps.take i).filter (fun x => decide (x.symbol = r.symbol))).getLast? with
      | none => none
      | some p => if p.last = 0 then none else some ((r.last - p.last) / p.last)

/-- The returns falling in the `w`-second trailing window ending at row `i`
(the `returns.rolling(window=f'{w}s', ...)` series is not symbol-grouped in
the source), with NaN entries dropped as pandas `std` does. -/
def windowReturns (ps : List PrepRow) (i : Nat) (r : PrepRow) (w : ℚ) : List ℚ :=
  ((List.range (i + 1)).filter (fun j =>
      match ps.get? j with
      | none => false
      | some x => decide (r.time - w < x.time))).filterMap (fun j => returnAt ps j)

/-- `volatility`: rolling standard deviation of the returns (NaN while
fewer than two valid returns are in the window). -/
def volatilityAt (ps : List PrepRow) (i : Nat) (r : PrepRow) (w : ℚ) : Option ℚ :=
  let rets := windowReturns ps i r w
  if rets.length < 2 then none else some (qstd rets)

/-- The five velocity features of one window, in source order:
tick_velocity, price_velocity, acceleration, volatility, range_velocity. -/
def velocityValsW (ps : List PrepRow) (i : Nat) (r : PrepRow) (w : ℚ) : List (Option ℚ) :=
  let win := winAt ps i r w
  let lasts := win.map (·.last)
  [ gated win ((win.length : ℚ) / w),
    priceVelocityAt ps w i,
    (if i = 0 then none else optSub (priceVelocityAt ps w i) (priceVelocityAt ps w (i - 1))),
    volatilityAt ps i r w,
    gated win ((qmaxList lasts - qminList lasts) / w) ]

/-- All velocity features of row `i` across the five windows. -/
def velocityVals (ps : List PrepRow) (i : Nat) (r : PrepRow) : List (Option ℚ) :=
  timeWindows.foldr (fun w acc => velocityValsW ps i r w ++ acc) []

/-- `trend_consistency` applied to a window's directions. -/
def trendConsistency (dirs : List Int) : ℚ :=
  if dirs.length = 0 then 0
  else
    let up := dirs.countP (fun d => decide (0 < d))
    let down := dirs.countP (fun d => decide (d < 0))
    let tot := dirs.countP (fun d => decide (d ≠ 0))
    if tot = 0 then 0 else ((max up down : Nat) : ℚ) / (tot : ℚ)

/-- `rejection_strength` applied to a window's last prices. -/
def rejectionStrength (lasts : List ℚ) : ℚ :=
  if lasts.length < 3 then 0
  else
    let range := qmaxList lasts - qminList lasts
    if range = 0 then 0
    else 1 - |lasts.getLastD 0 - lasts.headD 0| / range

/-- `level_tests` applied to a window's last prices: touches within 0.01%
of the window extremes. -/
def levelTests (lasts : List ℚ) : ℚ :=
  if lasts.length < 5 then 0
  else
    let hi := qmaxList lasts
    let lo := qminList lasts
    ((max (lasts.countP (fun p => decide (hi * (9999 / 10000) ≤ p)))
        (lasts.countP (fun p => decide (p ≤ lo * (10001 / 10000)))) : Nat) : ℚ)

/-- `directional_persistence` applied to a window's directions; the change
count is `(directions.diff() != 0).sum()` and hence includes the leading
NaN. -/
def directionalPersistence (dirs : List Int) : ℚ :=
  if dirs.length < 2 then 0
  else 1 - ((diffNeZeroCount dirs : Nat) : ℚ) / (dirs.length : ℚ)

/-- The five price-action features of one window, in source order:
momentum, trend_consistency, rejection_strength, level_tests,
directional_persistence. -/
def priceActionValsW (ps : List PrepRow) (i : Nat) (r : PrepRow) (w : ℚ) : List (Option ℚ) :=
  let win := winAt ps i r w
  let dirs : List Int := win.map (·.direction)
  let lasts := win.map (·.last)
  [ gated win ((dirs.map (fun d => (d : ℚ))).sum),
    gated win (trendConsistency dirs),
    gated win (rejectionStrength lasts),
    gated win (levelTests lasts),
    gated win (directionalPersistence dirs) ]

/-- All price-action features of row `i` across the five windows. -/
def priceActionVals (ps : List PrepRow) (i : Nat) (r : PrepRow) : List (Option ℚ) :=
  timeWindows.foldr (fun w acc => priceActionValsW ps i r w ++ acc) []

/-- `df['buy_volume'] = df['volume'] * (df['direction'] == 1).astype(int)`. -/
def buyVol (r : PrepRow) : ℚ := r.volume * (if r.direction = 1 then 1 else 0)

/-- `df['sell_volume'] = df['volume'] * (df['direction'] == -1).astype(int)`. -/
def sellVol (r : PrepRow) : ℚ := r.volume * (if r.direction = -1 then 1 else 0)

/-- Rolling sum of `volume` over a window. -/
def totalVolumeW (win : List PrepRow) : ℚ := (win.map (·.volume)).sum

/-- Rolling sum of `buy_volume` over a window. -/
def buyVolumeW (win : List PrepRow) : ℚ := (win.map buyVol).sum

/-- Rolling sum of `sell_volume` over a window. -/
def sellVolumeW (win : List PrepRow) : ℚ := (win.map sellVol).sum

/-- Volume carried by direction-neutral ticks (what the window's total
contains beyond the buy and sell partitions). -/
def neutralVol (r : PrepRow) : ℚ :=
  if r.direction = 1 then 0 else if r.direction = -1 then 0 else r.volume

/-- `total_volume.replace(0, 1)`, the denominator guard of the pressure and
imbalance features. -/
def replace0 (q : ℚ) : ℚ := if q = 0 then 1 else q

/-- `buy_pressure = buy_volume / total_volume.replace(0, 1)`. -/
def buyPressureW (win : List PrepRow) : ℚ := buyVolumeW win / replace0 (totalVolumeW win)

/-- `sell_pressure = sell_volume / total_volume.replace(0, 1)`. -/
def sellPressureW (win : List PrepRow) : ℚ := sellVolumeW win / replace0 (totalVolumeW win)

/-- `volume_imbalance = (buy_volume - sell_volume) / total_volume.replace(0, 1)`. -/
def volumeImbalanceW (win : List PrepRow) : ℚ :=
  (buyVolumeW win - sellVolumeW win) / replace0 (totalVolumeW win)

/-- `large_print_ratio`: fraction of window ticks with volume above three
times the window's mean volume. -/
def largePrints (vols : List ℚ) : ℚ :=
  if vols.length = 0 then 0
  else ((vols.countP (fun v => decide (qmean vols * 3 < v)) : Nat) : ℚ) / (vols.length : ℚ)

/-- The count-based `volume_ma`: mean of the last 50 volumes of the same
symbol up to row `i` (`rolling(window=50, min_periods=10)` inside the
symbol group). -/
def volumeMaAt (ps : List PrepRow) (i : Nat) (sym : Nat) : Option ℚ :=
  let grp := ((ps.take (i + 1)).filter (fun x => decide (x.symbol = sym))).map (·.volume)
  let winv := grp.drop (grp.length - volumeMaPeriod)
  if winv.length < 10 then none else some (qmean winv)

/-- The six volume-flow features of one window, in source order:
buy_pressure, sell_pressure, volume_imbalance, volume_spike,
large_print_ratio, volume_velocity. `volume_spike` divides the window's
volume sum by `volume_ma` (NaN-propagating, division by a zero average
yields an infinity, modelled as `none`). -/
def volumeFlowValsW (ps : List PrepRow) (i : Nat) (r : PrepRow) (w : ℚ) : List (Option ℚ) :=
  let win := winAt ps i r w
  [ gated win (buyPressureW win),
    gated win (sellPressureW win),
    gated win (volumeImbalanceW win),
    (match gated win (totalVolumeW win), volumeMaAt ps i r.symbol with
     | some tv, some ma => if ma = 0 then none else some (tv / ma)
     | _, _ => none),
    gated win (largePrints (win.map (·.volume))),
    gated win (totalVolumeW win / w) ]

/-- All volume-flow features of row `i` across the five windows. -/
def volumeFlowVals (ps : List PrepRow) (i : Nat) (r : PrepRow) : List (Option ℚ) :=
  timeWindows.foldr (fun w acc => volumeFlowValsW ps i r w ++ acc) []

/-- `change % 0.5 == 0` for the hardcoded Bovespa minimum tick: a rational
is a multiple of one half exactly when its double is an integer. -/
def isTickMultiple (q : ℚ) : Bool := decide ((2 * q).den = 1)

/-- `tick_size_adherence` applied to a window's last prices. -/
def tickSizeAdherence (lasts : List ℚ) : ℚ :=
  if lasts.length < 2 then 1
  else
    let pcs := qdiffs lasts
    if pcs.length = 0 then 1
    else ((pcs.countP isTickMultiple : Nat) : ℚ) / (pcs.length : ℚ)

/-- The six microstructure features of one window, in source order:
spread_normalized, spread_volatility, bid_change_freq, ask_change_freq,
avg_time_between_ticks, tick_size_adherence. -/
def microValsW (ps : List PrepRow) (i : Nat) (r : PrepRow) (w : ℚ) : List (Option ℚ) :=
  let win := winAt ps i r w
  let spreads := win.map (·.spread)
  let mids := win.map (·.mid_price)
  [ gated win (qmean spreads / replace0 (qmean mids)),
    gated win (qstd spreads),
    gated win (((diffNeZeroCount (win.map (·.bid)) : Nat) : ℚ) / w),
    gated win (((diffNeZeroCount (win.map (·.ask)) : Nat) : ℚ) / w),
    gated win (if win.length < 2 then 0 else qmean (qdiffs (win.map (·.timestamp)))),
    gated win (tickSizeAdherence (win.map (·.last))) ]

/-- All microstructure features of row `i` across the five windows. -/
def microVals (ps : List PrepRow) (i : Nat) (r : PrepRow) : List (Option ℚ) :=
  timeWindows.foldr (fun w acc => microValsW ps i r w ++ acc) []

/-! ### Feature extractor: optional OHLC features -/

/-- An aligned OHLC bar row of the optional second input frame. -/
structure OhlcRow where
  time : ℚ
  open_price : ℚ
  high : ℚ
  low : ℚ
  close : ℚ
  deriving DecidableEq

/-- The forward-filled reindex `ohlc_df.set_index('time').reindex(times,
method='ffill')`: the most recent bar at or before a tick's time. -/
def lastBarAtOrBefore (bars : List OhlcRow) (t : ℚ) : Option OhlcRow :=
  (bars.filter (fun b => decide (b.time ≤ t))).getLast?

/-- True ranges of the bar series after the first bar, threading the
previous close. -/
def trGo : OhlcRow → List OhlcRow → List ℚ
  | _, [] => []
  | p, b :: rest =>
      max (b.high - b.low) (max |b.high - p.close| |b.low - p.close|) :: trGo b rest

/-- The true-range series of `_calculate_atr`: the shifted close is NaN at
the first bar, where the row-wise max reduces to high − low. -/
def trList : List OhlcRow → List ℚ
  | [] => []
  | b :: rest => (b.high - b.low) :: trGo b rest

/-- `true_range.rolling(window=period).mean()` at bar index `j` (NaN until
`period` bars are available, and beyond the bar frame). -/
def atrAt (bars : List OhlcRow) (period : Nat) (j : Nat) : Option ℚ :=
  if j + 1 < period ∨ bars.length ≤ j then none
  else some (qmean (((trList bars).take (j + 1)).drop (j + 1 - period)))

/-- The eight OHLC features of tick row `i`, in source order: ohlc_range,
ohlc_body, upper_shadow, lower_shadow, price_position_in_range, atr_14,
atr_20, atr_50 (the ATR columns align by positional index label). -/
def ohlcValsAt (bars : List OhlcRow) (i : Nat) (r : PrepRow) : List (Option ℚ) :=
  let g := lastBarAtOrBefore bars r.time
  [ g.map (fun b => b.high - b.low),
    g.map (fun b => |b.close - b.open_price|),
    g.map (fun b => b.high - max b.open_price b.close),
    g.map (fun b => min b.open_price b.close - b.low),
    g.map (fun b => (r.last - b.low) / replace0 (b.high - b.low)),
    atrAt bars 14 i,
    atrAt bars 20 i,
    atrAt bars 50 i ]

/-! ### Feature extractor: family tables, merging, gap filling -/

/-- A feature-table row before gap filling: the (time, symbol) key plus the
feature values in column order (NaN as `none`). -/
structure FeatRow where
  time : ℚ
  symbol : Nat
  vals : List (Option ℚ)
  deriving DecidableEq

/-- Each family table is `df[['time', 'symbol']].copy()` plus the computed
columns: one row per prepared row, keyed like it. -/
def familyOf (ps : List PrepRow) (f : Nat → PrepRow → List (Option ℚ)) : List FeatRow :=
  ps.enum.map (fun p => { time := p.2.time, symbol := p.2.symbol, vals := f p.1 p.2 })

/-- `_extract_velocity_features`. -/
def velocityFeatures (ps : List PrepRow) : List FeatRow :=
  familyOf ps (fun i r => velocityVals ps i r)

/-- `_extract_price_action_features`. -/
def priceActionFeatures (ps : List PrepRow) : List FeatRow :=
  familyOf ps (fun i r => priceActionVals ps i r)

/-- `_extract_volume_flow_features`. -/
def volumeFlowFeatures (ps : List PrepRow) : List FeatRow :=
  familyOf ps (fun i r => volumeFlowVals ps i r)

/-- `_extract_microstructure_features`. -/
def microstructureFeatures (ps : List PrepRow) : List FeatRow :=
  familyOf ps (fun i r => microVals ps i r)

/-- `_extract_ohlc_features`. -/
def ohlcFeatures (ps : List PrepRow) (bars : List OhlcRow) : List FeatRow :=
  familyOf ps (fun i r => ohlcValsAt bars i r)

/-- Number of value columns of a table (all rows share it by construction). -/
def widthOf (R : List FeatRow) : Nat :=
  (R.headD { time := 0, symbol := 0, vals := [] }).vals.length

/-- One left row of `final_features.merge(features, on=['time', 'symbol'],
how='left')`: emitted once per matching right row (so duplicated keys
multiply), with NaN-padded columns when no right row matches. -/
def mergeRow (l : FeatRow) (R : List FeatRow) : List FeatRow :=
  match R.filter (fun m => decide (m.time = l.time ∧ m.symbol = l.symbol)) with
  | [] => [{ time := l.time, symbol := l.symbol
             vals := l.vals ++ List.replicate (widthOf R) none }]
  | ms => ms.map (fun m => { time := l.time, symbol := l.symbol, vals := l.vals ++ m.vals })

/-- The pandas left merge on `['time', 'symbol']`, preserving left order. -/
def mergeLeft : List FeatRow → List FeatRow → List FeatRow
  | [], _ => []
  | l :: ls, R => mergeRow l R ++ mergeLeft ls R

/-- The family tables in merge order; the OHLC table participates only when
a bar frame was supplied. -/
def familiesOf (ps : List PrepRow) (ohlc : Option (List OhlcRow)) : List (List FeatRow) :=
  [velocityFeatures ps, priceActionFeatures ps, volumeFlowFeatures ps,
    microstructureFeatures ps] ++
    (match ohlc with
     | some bars => [ohlcFeatures ps bars]
     | none => [])

/-- `final_features = df[['time', 'symbol']].copy()`. -/
def baseTable (ps : List PrepRow) : List FeatRow :=
  ps.map (fun r => { time := r.time, symbol := r.symbol, vals := [] })

/-- Forward fill of one row's values from the per-column carry. -/
def ffillVals (carry vals : List (Option ℚ)) : List (Option ℚ) :=
  List.zipWith (fun c v => match v with | some q => some q | none => c) carry vals

/-- Column-wise forward fill down the table (`df.fillna(method='ffill')`). -/
def ffillGo (carry : List (Option ℚ)) : List FeatRow → List FeatRow
  | [] => []
  | r :: rs =>
      { time := r.time, symbol := r.symbol, vals := ffillVals carry r.vals } ::
        ffillGo (ffillVals carry r.vals) rs

/-- A gap-free feature-table row. -/
structure FeatRowF where
  time : ℚ
  symbol : Nat
  vals : List ℚ
  deriving DecidableEq

/-- `_fill_missing_values`: forward fill, then zeros for what remains (the
final `replace([inf, -inf], 0)` acts on the values this model already sends
to `none`). -/
def fillMissingValues (L : List FeatRow) : List FeatRowF :=
  (ffillGo (List.replicate (widthOf L) none) L).map
    (fun r => { time := r.time, symbol := r.symbol, vals := r.vals.map (fun v => v.getD 0) })

/-- `TapeReadingFeatures.extract_features`: validate, prepare, extract the
families, left-merge them onto the key table, fill gaps. Invalid input
raises `ValueError` before any feature is computed. -/
def extractFeatures (b : TickBatch) (ohlc : Option (List OhlcRow)) :
    Except String (List FeatRowF) :=
  if validateTickData b then
    Except.ok (fillMissingValues
      ((familiesOf (prepareTickData b) ohlc).foldl mergeLeft (baseTable (prepareTickData b))))
  else Except.error "Dados tick inválidos"

/-! ### Real-time collector flush (spec-modelled tail) -/

/-- The per-symbol buffers drained by `_save_all_buffers`. -/
structure SymbolBuffers where
  tickBuffer : List RTick
  completedBars : List CompletedBar
  deriving DecidableEq

/-- Modelled from the spec: the source file realtime_collector.py is
truncated inside `_save_tick_buffer` (right after the output path is
formed) and `_save_ohlc_buffer` is missing entirely, so the post-write
buffer maintenance is not in the source. Per the spec, a successful flush
clears the tick ring entirely and trims the completed-bar ring to the last
100 entries (not to empty). -/
def flushSymbolBuffers (s : SymbolBuffers) : SymbolBuffers :=
  { tickBuffer := []
    completedBars := s.completedBars.drop (s.completedBars.length - 100) }

/-! ### Specification predicates -/

/-- The spec's direction rule: the first tick of a stream is neutral and
tick `i > 0` carries `sign(last[i] - last[i-1])` over the effective
last-price series. -/
def specDirection (l : List ℚ) (i : Nat) : Int :=
  if i = 0 then 0 else signQ (l.getD i 0 - l.getD (i - 1) 0)

/-- A sealed bar brackets the mid-prices of its minute's ticks and counts
exactly the ticks of that minute. -/
def barInv (ts : List RTick) (b : CompletedBar) : Prop :=
  (∀ t ∈ ts, minuteOf t.time = b.time → t.mid ≤ b.high ∧ b.low ≤ t.mid) ∧
    b.tick_count = (ts.filter (fun t => decide (minuteOf t.time = b.time))).length

/-- Invariant of the per-symbol OHLC state after processing a
time-ordered tick stream `ts`. -/
def stateInv (ts : List RTick) (s : OhlcState) : Prop :=
  (s.current = none → ts = [] ∧ s.completedBars = []) ∧
    (∀ c, s.current = some c →
      (∃ t ∈ ts, minuteOf t.time = c.minute) ∧
      (∀ t ∈ ts, minuteOf t.time ≤ c.minute) ∧
      (∀ t ∈ ts, minuteOf t.time = c.minute → t.mid ≤ c.high ∧ c.low ≤ t.mid) ∧
      c.tick_count = (ts.filter (fun t => decide (minuteOf t.time = c.minute))).length ∧
      (∀ b ∈ s.completedBars, barInv ts b ∧ b.time < c.minute) ∧
      (s.completedBars.map (·.time)).Pairwise (· < ·))

/-- Pairwise-distinct (time, symbol) keys of a raw batch. -/
def KeysDistinct (rows : List RawRow) : Prop :=
  rows.Pairwise (fun a b => ¬(a.time = b.time ∧ a.symbol = b.symbol))

/-- The (time, symbol) key of a feature-table row. -/
def keyF (r : FeatRow) : ℚ × Nat := (r.time, r.symbol)

/-- The (time, symbol) key of a prepared row. -/
def keyP (r : PrepRow) : ℚ × Nat := (r.time, r.symbol)

/-- The (time, symbol) key of a raw row. -/
def keyRaw (r : RawRow) : ℚ × Nat := (r.time, r.symbol)

/-! ### Concrete inputs used by counterexamples and witnesses -/

/-- All seven columns present. -/
def fullCols : ColFlags :=
  { hasTime := true, hasBid := true, hasAsk := true, hasSymbol := true
    hasLast := true, hasVolume := true, hasDirection := true }

/-- 100 rows at distinct times 0..99 of one symbol. -/
def mkRawD (i : Nat) : RawRow :=
  { time := (i : Nat), bid := 100, ask := 101, symbol := 0, last := 100
    volume := 1, direction := 0 }

/-- A valid batch with pairwise-distinct (time, symbol) keys. -/
def distinctBatch : TickBatch :=
  { cols := fullCols, rows := (List.range 100).map mkRawD }

/-- The same rows in reverse order. -/
def reversedBatch : TickBatch :=
  { cols := fullCols, rows := ((List.range 100).map mkRawD).reverse }

/-- 100 rows of one symbol where rows 98 and 99 share time 98: a valid
batch with one duplicated (time, symbol) key. -/
def mkRawDup (i : Nat) : RawRow :=
  { time := (if i = 99 then 98 else i : Nat), bid := 100, ask := 101, symbol := 0
    last := 100, volume := 1, direction := 0 }

/-- A valid batch with a duplicated (time, symbol) key. -/
def dupBatch : TickBatch :=
  { cols := fullCols, rows := (List.range 100).map mkRawDup }

/-- Row count of an extractor result (0 on a validation error). -/
def resultLength : Except String (List FeatRowF) → Nat
  | .ok t => t.length
  | .error _ => 0

/-- Two real-time ticks with identical bid/ask (hence identical mid-price)
but a rising last price. -/
def exTickA : RTick := { time := 0, bid := 10, ask := 12, last := 10, volume_real := 1 }

/-- See `exTickA`. -/
def exTickB : RTick := { time := 1, bid := 10, ask := 12, last := 15, volume_real := 1 }

/-- Out-of-order tick stream: minutes 5, 3, 5. -/
def oooTick1 : RTick := { time := 300, bid := 10, ask := 12, last := 10, volume_real := 1 }

/-- See `oooTick1`. -/
def oooTick2 : RTick := { time := 180, bid := 11, ask := 13, last := 11, volume_real := 1 }

/-- See `oooTick1`. -/
def oooTick3 : RTick := { time := 300, bid := 9, ask := 11, last := 9, volume_real := 1 }

/-- A short time-ordered stream spanning two minutes. -/
def srtTick1 : RTick := { time := 0, bid := 10, ask := 12, last := 10, volume_real := 2 }

/-- See `srtTick1`. -/
def srtTick2 : RTick := { time := 10, bid := 14, ask := 16, last := 14, volume_real := 3 }

/-- See `srtTick1`. -/
def srtTick3 : RTick := { time := 20, bid := 6, ask := 8, last := 6, volume_real := 1 }

/-- See `srtTick1`. -/
def srtTick4 : RTick := { time := 61, bid := 10, ask := 12, last := 10, volume_real := 1 }

/-- Two historical ticks with a rising last price. -/
def exHistA : HistTick := { time := 0, bid := 9, ask := 11, last := 1 }

/-- See `exHistA`. -/
def exHistB : HistTick := { time := 1, bid := 9, ask := 11, last := 5 }

/-- A historical tick payload for the fetch oracles. -/
def histTickOne : HistTick := { time := 1, bid := 2, ask := 3, last := 2 }

/-- Fetch oracle whose chunk 0 raises on every attempt while chunk 1
returns data at once. -/
def badFetch : Nat → Nat → FetchResult
  | 0, _ => .err
  | _, _ => .ok [histTickOne]

/-- Fetch oracle raising on every attempt of every chunk. -/
def allErrFetch : Nat → Nat → FetchResult := fun _ _ => .err

/-- A sealed bar used as concrete flush input. -/
def exBar : CompletedBar :=
  { time := 0, open_price := 1, high := 2, low := 0, close := 1, volume := 3
    tick_count := 2, typical_price := 1 }

/-- Concrete per-symbol buffers before a flush. -/
def exBuffers : SymbolBuffers :=
  { tickBuffer := [exTickA, exTickB], completedBars := [exBar] }

/-- Two volume-flow window rows: a buy of volume 2 and a sell of volume 3. -/
def exWinRow1 : PrepRow :=
  { defaultPrep with volume := 2, direction := 1 }

/-- See `exWinRow1`. -/
def exWinRow2 : PrepRow :=
  { defaultPrep with volume := 3, direction := -1 }

/-! ## Helper lemmas -/

theorem enqueueBurst_formula :
    ∀ (n q e : Nat), q ≤ tickQueueMaxsize →
      enqueueBurst n { queued := q, collectionErrors := e } =
        { queued := min (q + n) tickQueueMaxsize
          collectionErrors := e + (q + n - tickQueueMaxsize) } := by
  intro n
  induction n with
  | zero =>
      intro q e hq
      simp only [enqueueBurst, QueueState.mk.injEq]
      omega
  | succ n ih =>
      intro q e hq
      by_cases h : q < tickQueueMaxsize
      · have hstep : enqueueTick { queued := q, collectionErrors := e } =
            { queued := q + 1, collectionErrors := e } := by
          simp [enqueueTick, h]
        rw [enqueueBurst, hstep, ih (q + 1) e (by omega)]
        simp only [QueueState.mk.injEq]
        omega
      · have hstep : enqueueTick { queued := q, collectionErrors := e } =
            { queued := q, collectionErrors := e + 1 } := by
          simp [enqueueTick, h]
        rw [enqueueBurst, hstep, ih q (e + 1) hq]
        simp only [QueueState.mk.injEq]
        omega

theorem chtGo_none (fetch : Nat → Nat → FetchResult) (c : Nat)
    (hfail : collectChunk fetch c = ChunkOutcome.failed) :
    ∀ (fuel i : Nat) (acc : List (List HistTick)), i ≤ c → c < i + fuel →
      chtGo fetch fuel i acc = none := by
  intro fuel
  induction fuel with
  | zero => intro i acc h1 h2; omega
  | succ n ih =>
      intro i acc h1 h2
      by_cases hic : i = c
      · subst hic
        simp [chtGo, hfail]
      · have hlt : i < c := lt_of_le_of_ne h1 hic
        cases hout : collectChunk fetch i with
        | success ts => simp only [chtGo, hout]; exact ih (i + 1) _ (by omega) (by omega)
        | skipped => simp only [chtGo, hout]; exact ih (i + 1) _ (by omega) (by omega)
        | failed => simp [chtGo, hout]

theorem diffSigns_length : ∀ (p : ℚ) (l : List ℚ), (diffSigns p l).length = l.length := by
  intro p l
  induction l generalizing p with
  | nil => rfl
  | cons x xs ih => simp [diffSigns, ih]

theorem directionOfLasts_length (l : List ℚ) : (directionOfLasts l).length = l.length := by
  cases l with
  | nil => rfl
  | cons x xs => simp [directionOfLasts, diffSigns_length]

theorem diffSigns_get? : ∀ (xs : List ℚ) (p : ℚ) (j : Nat), j < xs.length →
    (diffSigns p xs).get? j = some (signQ (xs.getD j 0 - (p :: xs).getD j 0)) := by
  intro xs
  induction xs with
  | nil => intro p j h; simp at h
  | cons y ys ih =>
      intro p j h
      cases j with
      | zero => simp [diffSigns]
      | succ k =>
          have hk : k < ys.length := by simpa using h
          simpa [diffSigns] using ih y k hk

theorem directionOfLasts_get? (l : List ℚ) (i : Nat) (h : i < l.length) :
    (directionOfLasts l).get? i = some (specDirection l i) := by
  cases l with
  | nil => simp at h
  | cons x xs =>
      cases i with
      | zero => simp [directionOfLasts, specDirection]
      | succ j =>
          have hj : j < xs.length := by simpa using h
          show (diffSigns x xs).get? j = _
          rw [diffSigns_get? xs x j hj]
          simp [specDirection]

theorem getD_last : ∀ (l : List α) (d a : α), l.getLast? = some a →
    l.getD (l.length - 1) d = a := by
  intro l
  induction l with
  | nil => intro d a h; simp at h
  | cons x xs ih =>
      intro d a h
      cases xs with
      | nil => simp [List.getLast?] at h; simp [h]
      | cons y ys =>
          have h2 : (y :: ys).getLast? = some a := by rwa [List.getLast?_cons_cons] at h
          have hlen : (x :: y :: ys).length - 1 = ((y :: ys).length - 1) + 1 := by
            simp
          rw [hlen, List.getD_cons_succ]
          exact ih d a h2

theorem signQ_sub (a b : ℚ) :
    signQ (a - b) = if b < a then 1 else if a < b then -1 else 0 := by
  simp [signQ, sub_pos, sub_neg]

theorem rtDirection_bufAppend (buf : List RTick) (t : RTick) :
    rtDirection (bufAppend buf t) t =
      match buf.getLast? with
      | none => 0
      | some p => signQ (t.mid - p.mid) := by
  cases buf with
  | nil =>
      have h : bufAppend [] t = [t] := by simp [bufAppend, tickBufferSize]
      simp [h, rtDirection]
  | cons x rest =>
      obtain ⟨p, hp⟩ : ∃ p, (x :: rest).getLast? = some p := by
        cases hq : (x :: rest).getLast? with
        | none => simp at hq
        | some v => exact ⟨v, rfl⟩
      rw [hp]
      by_cases hlen : (x :: rest).length < tickBufferSize
      · have happ : bufAppend (x :: rest) t = (x :: rest) ++ [t] := by
          unfold bufAppend
          rw [if_pos hlen]
        have hlen2 : ¬(((x :: rest) ++ [t]).length < 2) := by
          simp only [List.length_append, List.length_cons]
          omega
        have hidx : ((x :: rest) ++ [t]).length - 2 = (x :: rest).length - 1 := by
          simp only [List.length_append, List.length_cons, List.length_nil]
          omega
        have hget : ((x :: rest) ++ [t]).getD ((x :: rest).length - 1) t = p := by
          rw [List.getD_eq_get?,
            List.get?_append (by simp only [List.length_cons]; omega),
            ← List.getD_eq_get?]
          exact getD_last _ _ _ hp
        rw [happ]
        simp only [rtDirection, if_neg hlen2]
        rw [hidx, hget, signQ_sub]
      · have hrest : rest ≠ [] := by
          intro hr
          subst hr
          simp [tickBufferSize] at hlen
        have hrl : 1 ≤ rest.length := List.length_pos.mpr hrest
        have happ : bufAppend (x :: rest) t = rest ++ [t] := by
          unfold bufAppend
          rw [if_neg hlen]
          rfl
        have hlen2 : ¬((rest ++ [t]).length < 2) := by
          simp only [List.length_append, List.length_cons, List.length_nil]
          omega
        have hidx : (rest ++ [t]).length - 2 = rest.length - 1 := by
          simp only [List.length_append, List.length_cons, List.length_nil]
          omega
        have hplast : rest.getLast? = some p := by
          cases rest with
          | nil => exact absurd rfl hrest
          | cons y ys => rwa [List.getLast?_cons_cons] at hp
        have hget : (rest ++ [t]).getD (rest.length - 1) t = p := by
          rw [List.getD_eq_get?, List.get?_append (by omega), ← List.getD_eq_get?]
          exact getD_last _ _ _ hplast
        rw [happ]
        simp only [rtDirection, if_neg hlen2]
        rw [hidx, hget, signQ_sub]

theorem rtDirectionsGo_eq : ∀ (ts buf : List RTick),
    rtDirectionsGo buf ts =
      match buf.getLast? with
      | none => directionOfLasts (ts.map RTick.mid)
      | some p => diffSigns p.mid (ts.map RTick.mid) := by
  intro ts
  induction ts with
  | nil =>
      intro buf
      cases hb : buf.getLast? <;> simp [rtDirectionsGo, directionOfLasts, diffSigns]
  | cons t rest ih =>
      intro buf
      have hlast : (bufAppend buf t).getLast? = some t := by
        unfold bufAppend
        split <;> exact List.getLast?_concat _
      have hstep : rtDirectionsGo buf (t :: rest) =
          rtDirection (bufAppend buf t) t :: rtDirectionsGo (bufAppend buf t) rest := rfl
      rw [hstep, ih (bufAppend buf t), hlast, rtDirection_bufAppend]
      cases hb : buf.getLast? with
      | none => simp [directionOfLasts]
      | some p => simp [diffSigns]

theorem rtDirections_eq (ts : List RTick) :
    rtDirections ts = directionOfLasts (ts.map RTick.mid) := by
  rw [rtDirections, rtDirectionsGo_eq]
  rfl

theorem minuteOf_mono {a b : Nat} (h : a ≤ b) : minuteOf a ≤ minuteOf b :=
  Nat.div_le_div_right h

theorem mem_ringAppend {old : List CompletedBar} {x b : CompletedBar}
    (hb : b ∈ ringAppend old x) : b ∈ old ∨ b = x := by
  unfold ringAppend at hb
  split at hb
  · rcases List.mem_append.mp hb with h | h
    · exact Or.inl h
    · exact Or.inr (List.mem_singleton.mp h)
  · rcases List.mem_append.mp hb with h | h
    · exact Or.inl ((List.tail_sublist _).subset h)
    · exact Or.inr (List.mem_singleton.mp h)

theorem ringAppend_pairwise (old : List CompletedBar) (x : CompletedBar)
    (hpw : (old.map (·.time)).Pairwise (· < ·))
    (hlt : ∀ b ∈ old, b.time < x.time) :
    ((ringAppend old x).map (·.time)).Pairwise (· < ·) := by
  unfold ringAppend
  split
  · rw [List.map_append]
    refine List.pairwise_append.mpr ⟨hpw, List.pairwise_singleton _ _, ?_⟩
    intro a ha b hb
    rw [List.mem_map] at ha
    obtain ⟨b₀, hb₀, rfl⟩ := ha
    simp only [List.map_cons, List.map_nil, List.mem_singleton] at hb
    subst hb
    exact hlt b₀ hb₀
  · rw [List.map_append]
    refine List.pairwise_append.mpr
      ⟨List.Pairwise.sublist (List.Sublist.map _ (List.tail_sublist old)) hpw,
        List.pairwise_singleton _ _, ?_⟩
    intro a ha b hb
    rw [List.mem_map] at ha
    obtain ⟨b₀, hb₀, rfl⟩ := ha
    simp only [List.map_cons, List.map_nil, List.mem_singleton] at hb
    subst hb
    exact hlt b₀ ((List.tail_sublist _).subset hb₀)

theorem stateInv_processTicks :
    ∀ (ts : List RTick), SortedTicks ts → stateInv ts (processTicks ts) := by
  intro ts
  induction ts using List.reverseRecOn with
  | nil =>
      intro _
      refine ⟨fun _ => ⟨rfl, rfl⟩, fun c hc => ?_⟩
      simp [processTicks, initOhlc] at hc
  | append_singleton ts t ih =>
      intro hsort
      have hsplit := List.pairwise_append.mp hsort
      have hs : SortedTicks ts := hsplit.1
      have hle : ∀ a ∈ ts, a.time ≤ t.time := fun a ha =>
        hsplit.2.2 a ha t (List.mem_singleton_self t)
      have hinv := ih hs
      have hstep : processTicks (ts ++ [t]) = updateOhlc (processTicks ts) t := by
        simp [processTicks, List.foldl_append]
      rw [hstep]
      cases hcur : (processTicks ts).current with
      | none =>
          obtain ⟨hts, hbars⟩ := hinv.1 hcur
          have hup : updateOhlc (processTicks ts) t =
              { processTicks ts with current := some (updateBar (newBar t) t) } := by
            simp [updateOhlc, hcur]
          rw [hup]
          subst hts
          refine ⟨fun h => by simp at h, fun c' hc' => ?_⟩
          have hc'' : c' = updateBar (newBar t) t := by
            simpa using hc'.symm
          subst hc''
          simp only [List.nil_append]
          refine ⟨⟨t, List.mem_singleton_self t, by simp [updateBar, newBar]⟩, ?_, ?_, ?_, ?_, ?_⟩
          · intro t' ht'
            rw [List.mem_singleton] at ht'
            subst ht'
            simp [updateBar, newBar]
          · intro t' ht' _
            rw [List.mem_singleton] at ht'
            subst ht'
            simp [updateBar, newBar]
          · simp [updateBar, newBar]
          · intro b hb
            rw [hbars] at hb
            simp at hb
          · rw [hbars]
            simp
      | some c =>
          obtain ⟨hex, hub, hbounds, hcount, hbars, hpw⟩ := hinv.2 c hcur
          by_cases hm : c.minute = minuteOf t.time
          · -- same minute: mutate the open bar in place
            have hup : updateOhlc (processTicks ts) t =
                { processTicks ts with current := some (updateBar c t) } := by
              simp [updateOhlc, hcur, hm]
            rw [hup]
            refine ⟨fun h => by simp at h, fun c' hc' => ?_⟩
            have hc'' : c' = updateBar c t := by simpa using hc'.symm
            subst hc''
            have hmin : (updateBar c t).minute = c.minute := by simp [updateBar]
            refine ⟨⟨t, by simp, by rw [hmin, hm]⟩, ?_, ?_, ?_, ?_, ?_⟩
            · intro t' ht'
              rcases List.mem_append.mp ht' with h | h
              · exact le_trans (hub t' h) (by rw [hmin])
              · rw [List.mem_singleton] at h
                subst h
                rw [hmin, hm]
            · intro t' ht' hmt
              rw [hmin] at hmt
              rcases List.mem_append.mp ht' with h | h
              · obtain ⟨h1, h2⟩ := hbounds t' h hmt
                exact ⟨le_trans h1 (by simp [updateBar, le_max_left]),
                  le_trans (by simp [updateBar, min_le_left]) h2⟩
              · rw [List.mem_singleton] at h
                subst h
                exact ⟨by simp [updateBar, le_max_right], by simp [updateBar, min_le_right]⟩
            · rw [List.filter_append]
              have hft : List.filter (fun x => decide (minuteOf x.time = (updateBar c t).minute))
                  [t] = [t] := by
                simp [hmin, hm]
              rw [hft, List.length_append]
              have : (updateBar c t).tick_count = c.tick_count + 1 := by simp [updateBar]
              rw [this, hmin, hcount]
              simp
            · intro b hb
              obtain ⟨⟨hbb, hbc⟩, hblt⟩ := hbars b hb
              have hbne : minuteOf t.time ≠ b.time := by
                rw [← hm]
                exact (Nat.ne_of_lt hblt).symm
              refine ⟨⟨?_, ?_⟩, by rw [hmin]; exact hblt⟩
              · intro t' ht' hmt
                rcases List.mem_append.mp ht' with h | h
                · exact hbb t' h hmt
                · rw [List.mem_singleton] at h
                  subst h
                  exact absurd hmt hbne
              · rw [List.filter_append]
                have hft : List.filter (fun x => decide (minuteOf x.time = b.time)) [t] = [] := by
                  simp [hbne]
                rw [hft, List.append_nil]
                exact hbc
            · exact hpw
          · -- new minute: seal the open bar and start a fresh one
            have hup : updateOhlc (processTicks ts) t =
                { current := some (updateBar (newBar t) t)
                  completedBars := ringAppend (processTicks ts).completedBars (sealBar c) } := by
              simp [updateOhlc, hcur, hm]
            rw [hup]
            have hlt : c.minute < minuteOf t.time := by
              obtain ⟨t₀, ht₀, h₀⟩ := hex
              exact lt_of_le_of_ne (h₀ ▸ minuteOf_mono (hle t₀ ht₀)) hm
            have hubm : ∀ t' ∈ ts, minuteOf t'.time < minuteOf t.time := fun t' h =>
              lt_of_le_of_lt (hub t' h) hlt
            refine ⟨fun h => by simp at h, fun c' hc' => ?_⟩
            have hc'' : c' = updateBar (newBar t) t := by simpa using hc'.symm
            subst hc''
            have hmin : (updateBar (newBar t) t).minute = minuteOf t.time := by
              simp [updateBar, newBar]
            refine ⟨⟨t, by simp, by rw [hmin]⟩, ?_, ?_, ?_, ?_, ?_⟩
            · intro t' ht'
              rcases List.mem_append.mp ht' with h | h
              · exact le_trans (le_of_lt (hubm t' h)) (by rw [hmin])
              · rw [List.mem_singleton] at h
                subst h
                rw [hmin]
            · intro t' ht' hmt
              rw [hmin] at hmt
              rcases List.mem_append.mp ht' with h | h
              · exact absurd hmt (Nat.ne_of_lt (hubm t' h))
              · rw [List.mem_singleton] at h
                subst h
                simp [updateBar, newBar]
            · rw [List.filter_append]
              have hfts : List.filter
                  (fun x => decide (minuteOf x.time = (updateBar (newBar t) t).minute)) ts = [] := by
                rw [List.filter_eq_nil_iff]
                intro a ha
                rw [hmin]
                simp only [decide_eq_true_eq]
                exact Nat.ne_of_lt (hubm a ha)
              have hft : List.filter
                  (fun x => decide (minuteOf x.time = (updateBar (newBar t) t).minute)) [t] =
                    [t] := by
                simp [hmin]
              rw [hfts, hft]
              simp [updateBar, newBar]
            · intro b hb
              rcases mem_ringAppend hb with hbo | hbn
              · obtain ⟨⟨hbb, hbc⟩, hblt⟩ := hbars b hbo
                have hbne : minuteOf t.time ≠ b.time :=
                  (Nat.ne_of_lt (lt_trans hblt hlt)).symm
                refine ⟨⟨?_, ?_⟩, by rw [hmin]; exact lt_trans hblt hlt⟩
                · intro t' ht' hmt
                  rcases List.mem_append.mp ht' with h | h
                  · exact hbb t' h hmt
                  · rw [List.mem_singleton] at h
                    subst h
                    exact absurd hmt hbne
                · rw [List.filter_append]
                  have hft : List.filter (fun x => decide (minuteOf x.time = b.time)) [t] =
                      [] := by
                    simp [hbne]
                  rw [hft, List.append_nil]
                  exact hbc
              · subst hbn
                have hsm : (sealBar c).time = c.minute := by simp [sealBar]
                have hbne : minuteOf t.time ≠ (sealBar c).time := by
                  rw [hsm]
                  exact fun hcon => hm hcon.symm
                refine ⟨⟨?_, ?_⟩, by rw [hmin, hsm]; exact hlt⟩
                · intro t' ht' hmt
                  rw [hsm] at hmt
                  rcases List.mem_append.mp ht' with h | h
                  · obtain ⟨h1, h2⟩ := hbounds t' h hmt
                    exact ⟨by simpa [sealBar] using h1, by simpa [sealBar] using h2⟩
                  · rw [List.mem_singleton] at h
                    subst h
                    exact absurd hmt (by simpa [hsm] using hbne)
                · rw [List.filter_append]
                  have hft : List.filter (fun x => decide (minuteOf x.time = (sealBar c).time))
                      [t] = [] := by
                    simp [hbne]
                  rw [hft, List.append_nil]
                  rw [hsm]
                  have : (sealBar c).tick_count = c.tick_count := by simp [sealBar]
                  rw [this]
                  exact hcount
            · exact ringAppend_pairwise _ _ hpw (fun b hb =>
                by rw [show (sealBar c).time = c.minute from by simp [sealBar]]
                   exact (hbars b hb).2)

/-! ## Claim theorems -/

/-- C1, counterexample: for ticks processed out of timestamp order (minutes
5, 3, 5) the engine seals bars with minute timestamps [5, 3], which is not
strictly increasing — the claim fails for arbitrary tick sequences. -/
theorem C1_counterexample_out_of_order_ticks :
    ((processTicks [oooTick1, oooTick2, oooTick3]).completedBars.map (fun b => b.time)) =
        [5, 3] ∧
      ¬ ((processTicks [oooTick1, oooTick2, oooTick3]).completedBars.map
          (fun b => b.time)).Pairwise (· < ·) := by
  refine ⟨by decide, ?_⟩
  rw [show ((processTicks [oooTick1, oooTick2, oooTick3]).completedBars.map
      (fun b => b.time)) = [5, 3] from by decide]
  decide

/-- C1, amended: for every tick stream processed in non-decreasing
timestamp order, at most one bar is open per symbol at any time (the state
holds at most one `current` bar by construction) and the minute timestamps
of the bars in the completed-bar ring are strictly increasing. -/
theorem C1_single_open_bar_and_sealed_times_increasing (ts : List RTick)
    (h : SortedTicks ts) :
    openBarCount (processTicks ts) ≤ 1 ∧
      ((processTicks ts).completedBars.map (fun b => b.time)).Pairwise (· < ·) := by
  have hinv := stateInv_processTicks ts h
  constructor
  · unfold openBarCount
    cases (processTicks ts).current <;> simp
  · cases hcur : (processTicks ts).current with
    | none =>
        rw [(hinv.1 hcur).2]
        simp
    | some c => exact (hinv.2 c hcur).2.2.2.2.2

/-- C1, witness: a concrete sorted 4-tick stream spanning two minutes. -/
theorem C1_witness :
    SortedTicks [srtTick1, srtTick2, srtTick3, srtTick4] ∧
      (openBarCount (processTicks [srtTick1, srtTick2, srtTick3, srtTick4]) ≤ 1 ∧
        ((processTicks [srtTick1, srtTick2, srtTick3, srtTick4]).completedBars.map
          (fun b => b.time)).Pairwise (· < ·)) :=
  ⟨by unfold SortedTicks; decide,
    C1_single_open_bar_and_sealed_times_increasing _ (by unfold SortedTicks; decide)⟩

/-- C2, counterexample: two real-time ticks with identical mid-prices but a
rising last price; the real-time collector assigns direction 0 to the
second tick whereas the claimed `sign(last[i] − last[i-1])` rule (with a
last price available) gives 1. -/
theorem C2_counterexample_realtime_uses_mid :
    rtDirections [exTickA, exTickB] = [0, 0] ∧
      specDirection ([exTickA, exTickB].map RTick.last) 1 = 1 := by
  constructor
  · rw [rtDirections_eq]
    norm_num [RTick.mid, exTickA, exTickB, directionOfLasts, diffSigns, signQ]
  · norm_num [specDirection, signQ, exTickA, exTickB]

/-- C2, amended: the historical collector and the feature extractor both
assign direction 0 to the first tick and `sign(last[i] − last[i-1])` to the
later ones (with the historical collector falling back to the mid-price
column when the frame has no last column); the real-time collector instead
assigns 0 to the first tick and the sign of the consecutive mid-price
difference, ignoring the last price. -/
theorem C2_direction_rules_per_component :
    ∀ (hasLast : Bool) (hts : List HistTick) (lasts : List ℚ) (rts : List RTick) (i : Nat),
      i < hts.length → i < lasts.length → i < rts.length →
      (histDirections hasLast hts).get? i = some (specDirection (histLasts hasLast hts) i) ∧
        (tapeDirections lasts).get? i = some (specDirection lasts i) ∧
        (rtDirections rts).get? i = some (specDirection (rts.map RTick.mid) i) := by
  intro hasLast hts lasts rts i h1 h2 h3
  have hl : (histLasts hasLast hts).length = hts.length := by
    unfold histLasts
    split <;> simp
  refine ⟨?_, ?_, ?_⟩
  · exact directionOfLasts_get? _ _ (by rw [hl]; exact h1)
  · exact directionOfLasts_get? _ _ h2
  · rw [rtDirections_eq]
    exact directionOfLasts_get? _ _ (by simpa using h3)

/-- C2, witness: concrete two-element streams for all three components. -/
theorem C2_witness :
    (1 < [exHistA, exHistB].length ∧ 1 < [(1 : ℚ), 5].length ∧
        1 < [exTickA, exTickB].length) ∧
      ((histDirections true [exHistA, exHistB]).get? 1 =
          some (specDirection (histLasts true [exHistA, exHistB]) 1) ∧
        (tapeDirections [(1 : ℚ), 5]).get? 1 = some (specDirection [(1 : ℚ), 5] 1) ∧
        (rtDirections [exTickA, exTickB]).get? 1 =
          some (specDirection ([exTickA, exTickB].map RTick.mid) 1)) :=
  ⟨by decide,
    C2_direction_rules_per_component true [exHistA, exHistB] [(1 : ℚ), 5] [exTickA, exTickB] 1
      (by decide) (by decide) (by decide)⟩

/-- C3: for ticks processed in non-decreasing timestamp order, every sealed
bar's high/low bracket the mid-prices of its minute's ticks and its
tick_count is exactly the number of ticks of that minute. -/
theorem C3_sealed_bar_bounds_and_tick_count (ts : List RTick) (h : SortedTicks ts) :
    ∀ b ∈ (processTicks ts).completedBars,
      (∀ t ∈ ts, minuteOf t.time = b.time → t.mid ≤ b.high ∧ b.low ≤ t.mid) ∧
        b.tick_count = (ts.filter (fun t => decide (minuteOf t.time = b.time))).length := by
  intro b hb
  have hinv := stateInv_processTicks ts h
  cases hcur : (processTicks ts).current with
  | none =>
      rw [(hinv.1 hcur).2] at hb
      simp at hb
  | some c => exact ((hinv.2 c hcur).2.2.2.2.1 b hb).1

/-- C3, witness: the sorted 4-tick stream seals one bar (minute 0, three
ticks). -/
theorem C3_witness :
    SortedTicks [srtTick1, srtTick2, srtTick3, srtTick4] ∧
      ∀ b ∈ (processTicks [srtTick1, srtTick2, srtTick3, srtTick4]).completedBars,
        (∀ t ∈ [srtTick1, srtTick2, srtTick3, srtTick4],
            minuteOf t.time = b.time → t.mid ≤ b.high ∧ b.low ≤ t.mid) ∧
          b.tick_count = ([srtTick1, srtTick2, srtTick3, srtTick4].filter
            (fun t => decide (minuteOf t.time = b.time))).length :=
  ⟨by unfold SortedTicks; decide,
    C3_sealed_bar_bounds_and_tick_count _ (by unfold SortedTicks; decide)⟩

/-- C4: the feature extractor raises its validation error exactly when a
required column {time, bid, ask, symbol} is missing or the batch has fewer
than 100 rows, and otherwise returns a feature table; validation runs
before any feature is computed, so no partial output is produced. -/
theorem C4_validation_error_iff_missing_columns_or_short :
    ∀ (b : TickBatch) (ohlc : Option (List OhlcRow)),
      (∃ msg, extractFeatures b ohlc = Except.error msg) ↔
        ¬(b.cols.hasTime = true ∧ b.cols.hasBid = true ∧ b.cols.hasAsk = true ∧
          b.cols.hasSymbol = true ∧ 100 ≤ b.rows.length) := by
  intro b ohlc
  have hval : validateTickData b = true ↔
      (b.cols.hasTime = true ∧ b.cols.hasBid = true ∧ b.cols.hasAsk = true ∧
        b.cols.hasSymbol = true ∧ 100 ≤ b.rows.length) := by
    simp [validateTickData, and_assoc]
  by_cases h : validateTickData b = true
  · constructor
    · rintro ⟨msg, hmsg⟩
      rw [extractFeatures, if_pos h] at hmsg
      exact absurd hmsg (by simp)
    · intro hc
      exact absurd (hval.mp h) hc
  · constructor
    · intro _
      exact fun hc => h (hval.mpr hc)
    · intro _
      exact ⟨"Dados tick inválidos", by rw [extractFeatures, if_neg h]⟩

/-- C4, witness: the validation criterion evaluated at the concrete valid
batch. -/
theorem C4_witness :
    (∃ msg, extractFeatures distinctBatch none = Except.error msg) ↔
      ¬(distinctBatch.cols.hasTime = true ∧ distinctBatch.cols.hasBid = true ∧
        distinctBatch.cols.hasAsk = true ∧ distinctBatch.cols.hasSymbol = true ∧
        100 ≤ distinctBatch.rows.length) :=
  C4_validation_error_iff_missing_columns_or_short distinctBatch none

/-- C5: after a successful flush the tick ring is empty and the
completed-bar ring is trimmed to its last 100 entries (all entries when it
held at most 100) — a suffix of the pre-flush ring, not an empty list
whenever the ring was non-empty. -/
theorem C5_flush_clears_ticks_trims_bars :
    ∀ s : SymbolBuffers,
      (flushSymbolBuffers s).tickBuffer = [] ∧
        (flushSymbolBuffers s).completedBars.length = min 100 s.completedBars.length ∧
        (flushSymbolBuffers s).completedBars.IsSuffix s.completedBars := by
  intro s
  refine ⟨rfl, ?_, ?_⟩
  · show (s.completedBars.drop (s.completedBars.length - 100)).length = _
    rw [List.length_drop]
    omega
  · exact List.drop_suffix _ _

/-- C5, witness: concrete buffers with two pending ticks and one sealed
bar. -/
theorem C5_witness :
    (flushSymbolBuffers exBuffers).tickBuffer = [] ∧
      (flushSymbolBuffers exBuffers).completedBars.length =
        min 100 exBuffers.completedBars.length ∧
      (flushSymbolBuffers exBuffers).completedBars.IsSuffix exBuffers.completedBars :=
  C5_flush_clears_ticks_trims_bars exBuffers

/-- C6: a burst of 60,000 enqueue attempts against the empty 50,000-capacity
ingestion queue with no draining accepts exactly 50,000 ticks and records
exactly 10,000 drops on the error counter; `enqueueTick` is total, so no
exception escapes the poll loop. -/
theorem C6_queue_burst_accepts_50000_drops_10000 :
    enqueueBurst 60000 { queued := 0, collectionErrors := 0 } =
      { queued := 50000, collectionErrors := 10000 } := by
  rw [enqueueBurst_formula 60000 0 0 (by decide)]
  decide

/-- C9, counterexample: a fetch oracle whose chunk 0 raises on all three
attempts while chunk 1 would deliver data at once; `collect_historical_ticks`
returns failure for the whole symbol instead of proceeding with the
remaining chunk. -/
theorem C9_counterexample_chunk_failure_aborts_symbol :
    collectHistoricalTicks badFetch 2 = none ∧
      collectChunk badFetch 1 = ChunkOutcome.success [histTickOne] := by
  refine ⟨by decide, by decide⟩

/-- C9, amended: a failed chunk fetch is retried up to three attempts (with
a fixed 5-second back-off); once a chunk exhausts all three attempts, the
chunk fails and the whole symbol's tick collection returns failure — the
remaining chunks of that symbol are not collected (other symbols still
proceed in `collect_all_symbols`). -/
theorem C9_retry_exhaustion_aborts_collection :
    ∀ (fetch : Nat → Nat → FetchResult) (numChunks c : Nat),
      c < numChunks → fetch c 0 = FetchResult.err → fetch c 1 = FetchResult.err →
      fetch c 2 = FetchResult.err →
      collectChunk fetch c = ChunkOutcome.failed ∧
        collectHistoricalTicks fetch numChunks = none := by
  intro fetch numChunks c hc h0 h1 h2
  have hfail : collectChunk fetch c = ChunkOutcome.failed := by
    simp [collectChunk, h0, h1, h2]
  exact ⟨hfail, chtGo_none fetch c hfail numChunks 0 [] (Nat.zero_le c) (by omega)⟩

/-- C9, witness: the everywhere-failing fetch oracle with two chunks. -/
theorem C9_witness :
    collectChunk allErrFetch 0 = ChunkOutcome.failed ∧
      collectHistoricalTicks allErrFetch 2 = none :=
  C9_retry_exhaustion_aborts_collection allErrFetch 2 0 (by decide) rfl rfl rfl

/-! ### Volume-flow algebra (C7) -/

theorem sum_map_add_distrib (l : List α) (f g : α → ℚ) :
    (l.map (fun x => f x + g x)).sum = (l.map f).sum + (l.map g).sum := by
  induction l with
  | nil => simp
  | cons x xs ih =>
      simp only [List.map_cons, List.sum_cons, ih]
      ring

theorem sum_map_nonneg (l : List α) (f : α → ℚ) (h : ∀ x ∈ l, 0 ≤ f x) :
    0 ≤ (l.map f).sum := by
  induction l with
  | nil => simp
  | cons x xs ih =>
      simp only [List.map_cons, List.sum_cons]
      exact add_nonneg (h x (by simp)) (ih (fun y hy => h y (by simp [hy])))

theorem sum_map_eq_zero_iff (l : List α) (f : α → ℚ) (h : ∀ x ∈ l, 0 ≤ f x) :
    (l.map f).sum = 0 ↔ ∀ x ∈ l, f x = 0 := by
  induction l with
  | nil => simp
  | cons x xs ih =>
      simp only [List.map_cons, List.sum_cons, List.mem_cons]
      have hx : 0 ≤ f x := h x (by simp)
      have hxs : 0 ≤ (xs.map f).sum := sum_map_nonneg xs f (fun y hy => h y (by simp [hy]))
      constructor
      · intro h0
        have hfx : f x = 0 := by linarith
        have hsum : (xs.map f).sum = 0 := by linarith
        intro y hy
        rcases hy with rfl | hy
        · exact hfx
        · exact ((ih (fun z hz => h z (by simp [hz]))).mp hsum) y hy
      · intro hall
        rw [hall x (Or.inl rfl),
          (ih (fun z hz => h z (by simp [hz]))).mpr (fun y hy => hall y (Or.inr hy))]
        simp

theorem buy_sell_neutral_total (win : List PrepRow) :
    buyVolumeW win + sellVolumeW win + (win.map neutralVol).sum = totalVolumeW win := by
  unfold buyVolumeW sellVolumeW totalVolumeW
  rw [← sum_map_add_distrib, ← sum_map_add_distrib]
  congr 1
  apply List.map_congr_left
  intro r _
  unfold buyVol sellVol neutralVol
  by_cases h1 : r.direction = 1
  · simp [h1]
  · by_cases h2 : r.direction = -1
    · simp [h1, h2]
    · simp [h1, h2]

/-- C7: for any window with nonzero total volume (with the nonnegative
volumes and three-valued directions the pipeline produces),
`buy_pressure + sell_pressure ≤ 1`, with equality exactly when every
volume-carrying tick of the window has a non-neutral direction. -/
theorem C7_pressures_sum_bound_and_equality :
    ∀ (win : List PrepRow),
      (∀ r ∈ win, 0 ≤ r.volume) →
      (∀ r ∈ win, r.direction = 1 ∨ r.direction = -1 ∨ r.direction = 0) →
      totalVolumeW win ≠ 0 →
      buyPressureW win + sellPressureW win ≤ 1 ∧
        (buyPressureW win + sellPressureW win = 1 ↔
          ∀ r ∈ win, r.volume ≠ 0 → r.direction ≠ 0) := by
  intro win hvol hdir htot
  have hneutnn : ∀ r ∈ win, 0 ≤ neutralVol r := by
    intro r hr
    unfold neutralVol
    by_cases h1 : r.direction = 1
    · simp [h1]
    · by_cases h2 : r.direction = -1
      · simp [h1, h2]
      · simpa [h1, h2] using hvol r hr
  have htpos : 0 < totalVolumeW win :=
    lt_of_le_of_ne (sum_map_nonneg win _ hvol) (Ne.symm htot)
  have hrep : replace0 (totalVolumeW win) = totalVolumeW win := by
    simp [replace0, htot]
  have hnn : 0 ≤ (win.map neutralVol).sum := sum_map_nonneg win _ hneutnn
  have hkey := buy_sell_neutral_total win
  have hsum : buyPressureW win + sellPressureW win =
      (buyVolumeW win + sellVolumeW win) / totalVolumeW win := by
    unfold buyPressureW sellPressureW
    rw [hrep, div_add_div_same]
  constructor
  · rw [hsum, div_le_one htpos]
    linarith
  · rw [hsum, div_eq_one_iff_eq (ne_of_gt htpos)]
    constructor
    · intro heq r hr hv hd0
      have hzero : (win.map neutralVol).sum = 0 := by linarith
      have hr0 := (sum_map_eq_zero_iff win neutralVol hneutnn).mp hzero r hr
      unfold neutralVol at hr0
      rw [hd0] at hr0
      simp at hr0
      exact hv hr0
    · intro hall
      have hz : (win.map neutralVol).sum = 0 := by
        rw [sum_map_eq_zero_iff win neutralVol hneutnn]
        intro r hr
        unfold neutralVol
        rcases hdir r hr with h1 | h1 | h1
        · simp [h1]
        · simp [h1]
        · by_cases hv : r.volume = 0
          · simp [h1, hv]
          · exact absurd h1 (hall r hr hv)
      linarith

/-! ### Extractor structure lemmas (C8, C10) -/

theorem zip_build_keys (cols : ColFlags) :
    ∀ (sorted : List RawRow) (l' : List (ℚ × Int)), sorted.length ≤ l'.length →
      ((sorted.zip l').map (fun p => buildPrepRow cols p.1 p.2.1 p.2.2)).map keyP =
        sorted.map keyRaw := by
  intro sorted
  induction sorted with
  | nil => intro l' _; simp
  | cons x xs ih =>
      intro l' h
      cases l' with
      | nil => simp at h
      | cons y ys =>
          simp only [List.zip_cons_cons, List.map_cons]
          rw [ih ys (by simpa using h)]
          rfl

theorem prepareRows_zip_length (cols : ColFlags) (sorted : List RawRow) :
    sorted.length ≤
      ((if cols.hasLast then sorted.map (·.last)
          else sorted.map (fun r => (r.bid + r.ask) / 2)).zip
        (if cols.hasDirection then sorted.map (·.direction)
          else tapeDirections (if cols.hasLast then sorted.map (·.last)
            else sorted.map (fun r => (r.bid + r.ask) / 2)))).length := by
  cases hL : cols.hasLast <;> cases hD : cols.hasDirection <;>
    simp [tapeDirections, directionOfLasts_length]

theorem prepareRows_keys (cols : ColFlags) (sorted : List RawRow) :
    (prepareRows cols sorted).map keyP = sorted.map keyRaw := by
  simp only [prepareRows]
  exact zip_build_keys cols sorted _ (prepareRows_zip_length cols sorted)

theorem prepareRows_length (cols : ColFlags) (sorted : List RawRow) :
    (prepareRows cols sorted).length = sorted.length := by
  have h := prepareRows_keys cols sorted
  have := congrArg List.length h
  simpa using this

theorem prepareTickData_keys (b : TickBatch) :
    (prepareTickData b).map keyP = (sortRawByTime b.rows).map keyRaw :=
  prepareRows_keys b.cols (sortRawByTime b.rows)

theorem prepareTickData_length (b : TickBatch) :
    (prepareTickData b).length = b.rows.length := by
  rw [prepareTickData, prepareRows_length]
  exact (List.perm_insertionSort rawTimeLE b.rows).length_eq

theorem familyOf_keys (ps : List PrepRow) (f : Nat → PrepRow → List (Option ℚ)) :
    (familyOf ps f).map keyF = ps.map keyP := by
  unfold familyOf
  rw [List.map_map]
  have h : (keyF ∘ fun p : Nat × PrepRow =>
      ({ time := p.2.time, symbol := p.2.symbol, vals := f p.1 p.2 } : FeatRow)) =
        keyP ∘ Prod.snd := by
    funext p
    rfl
  rw [h, ← List.map_map, List.enum_map_snd]

theorem baseTable_keys (ps : List PrepRow) : (baseTable ps).map keyF = ps.map keyP := by
  unfold baseTable
  rw [List.map_map]
  rfl

theorem filter_key_singleton :
    ∀ (R : List FeatRow) (t : ℚ) (s : Nat),
      (R.map keyF).Pairwise (· ≠ ·) → (t, s) ∈ R.map keyF →
      ∃ m, R.filter (fun m => decide (m.time = t ∧ m.symbol = s)) = [m] ∧
        m.time = t ∧ m.symbol = s := by
  intro R
  induction R with
  | nil => intro t s _ hm; simp at hm
  | cons r rest ih =>
      intro t s hpw hm
      rw [List.map_cons, List.pairwise_cons] at hpw
      by_cases hk : r.time = t ∧ r.symbol = s
      · refine ⟨r, ?_, hk.1, hk.2⟩
        rw [List.filter_cons_of_pos (by simp [hk.1, hk.2])]
        have hrest : rest.filter (fun m => decide (m.time = t ∧ m.symbol = s)) = [] := by
          rw [List.filter_eq_nil_iff]
          intro a ha
          simp only [decide_eq_true_eq]
          intro hc
          apply hpw.1 (keyF a) (List.mem_map_of_mem keyF ha)
          show (r.time, r.symbol) = (a.time, a.symbol)
          rw [hk.1, hk.2, hc.1, hc.2]
        rw [hrest]
      · have hm' : (t, s) ∈ rest.map keyF := by
          rcases List.mem_cons.mp hm with h | h
          · exact absurd ⟨congrArg Prod.fst h.symm, congrArg Prod.snd h.symm⟩ hk
          · exact h
        obtain ⟨m, hfilter, hmt, hms⟩ := ih t s hpw.2 hm'
        refine ⟨m, ?_, hmt, hms⟩
        rw [List.filter_cons_of_neg (by simpa using hk), hfilter]

theorem mergeRow_of_mem (l : FeatRow) (R : List FeatRow)
    (hpw : (R.map keyF).Pairwise (· ≠ ·)) (hm : keyF l ∈ R.map keyF) :
    ∃ v, mergeRow l R = [{ time := l.time, symbol := l.symbol, vals := v }] := by
  obtain ⟨m, hf, _, _⟩ := filter_key_singleton R l.time l.symbol hpw hm
  refine ⟨l.vals ++ m.vals, ?_⟩
  unfold mergeRow
  rw [hf]
  rfl

theorem mergeLeft_length_keys (R : List FeatRow)
    (hpw : (R.map keyF).Pairwise (· ≠ ·)) :
    ∀ (L : List FeatRow), (∀ l ∈ L, keyF l ∈ R.map keyF) →
      (mergeLeft L R).length = L.length ∧ (mergeLeft L R).map keyF = L.map keyF := by
  intro L
  induction L with
  | nil => intro _; exact ⟨rfl, rfl⟩
  | cons l ls ih =>
      intro hmem
      obtain ⟨v, hv⟩ := mergeRow_of_mem l R hpw (hmem l (by simp))
      obtain ⟨hlen, hkeys⟩ := ih (fun x hx => hmem x (by simp [hx]))
      have hcons : mergeLeft (l :: ls) R = mergeRow l R ++ mergeLeft ls R := rfl
      constructor
      · rw [hcons, List.length_append, hv, hlen]
        simp only [List.length_cons, List.length_nil]
        omega
      · rw [hcons, List.map_append, hv, hkeys]
        rfl

theorem foldl_mergeLeft_keys :
    ∀ (fams : List (List FeatRow)) (L : List FeatRow) (K : List (ℚ × Nat)),
      K.Pairwise (· ≠ ·) → L.map keyF = K → (∀ R ∈ fams, R.map keyF = K) →
      (fams.foldl mergeLeft L).map keyF = K ∧ (fams.foldl mergeLeft L).length = K.length := by
  intro fams
  induction fams with
  | nil =>
      intro L K _ hL _
      refine ⟨hL, ?_⟩
      simp [← hL]
  | cons R fams ih =>
      intro L K hpw hL hfams
      have hR : R.map keyF = K := hfams R (by simp)
      have hpwR : (R.map keyF).Pairwise (· ≠ ·) := by rw [hR]; exact hpw
      have hmem : ∀ l ∈ L, keyF l ∈ R.map keyF := by
        intro l hl
        rw [hR, ← hL]
        exact List.mem_map_of_mem keyF hl
      obtain ⟨hlen, hkeys⟩ := mergeLeft_length_keys R hpwR L hmem
      have hkeys' : (mergeLeft L R).map keyF = K := by rw [hkeys, hL]
      simpa only [List.foldl_cons] using
        ih (mergeLeft L R) K hpw hkeys' (fun R' hR' => hfams R' (by simp [hR']))

theorem ffillGo_length : ∀ (carry : List (Option ℚ)) (L : List FeatRow),
    (ffillGo carry L).length = L.length := by
  intro carry L
  induction L generalizing carry with
  | nil => rfl
  | cons r rs ih => simp [ffillGo, ih]

theorem fillMissingValues_length (L : List FeatRow) :
    (fillMissingValues L).length = L.length := by
  unfold fillMissingValues
  rw [List.length_map, ffillGo_length]

theorem familiesOf_keys (ps : List PrepRow) (ohlc : Option (List OhlcRow)) :
    ∀ R ∈ familiesOf ps ohlc, R.map keyF = ps.map keyP := by
  intro R hR
  cases ohlc with
  | none =>
      have h : familiesOf ps none = [velocityFeatures ps, priceActionFeatures ps,
          volumeFlowFeatures ps, microstructureFeatures ps] := rfl
      rw [h] at hR
      simp only [List.mem_cons, List.not_mem_nil, or_false] at hR
      rcases hR with rfl | rfl | rfl | rfl <;> exact familyOf_keys _ _
  | some bars =>
      have h : familiesOf ps (some bars) = [velocityFeatures ps, priceActionFeatures ps,
          volumeFlowFeatures ps, microstructureFeatures ps, ohlcFeatures ps bars] := rfl
      rw [h] at hR
      simp only [List.mem_cons, List.not_mem_nil, or_false] at hR
      rcases hR with rfl | rfl | rfl | rfl | rfl <;> exact familyOf_keys _ _

theorem keysDistinct_prepared (b : TickBatch) (hdist : KeysDistinct b.rows) :
    ((prepareTickData b).map keyP).Pairwise (· ≠ ·) := by
  rw [prepareTickData_keys]
  have hraw : (b.rows.map keyRaw).Pairwise (· ≠ ·) := by
    rw [List.pairwise_map]
    refine hdist.imp ?_
    intro a c h hc
    exact h ⟨congrArg Prod.fst hc, congrArg Prod.snd hc⟩
  have hperm : List.Perm ((sortRawByTime b.rows).map keyRaw) (b.rows.map keyRaw) :=
    (List.perm_insertionSort rawTimeLE b.rows).map keyRaw
  exact (List.Perm.pairwise_iff (fun h => Ne.symm h) hperm).mpr hraw

set_option maxRecDepth 200000 in
/-- C8, counterexample: `dupBatch` passes validation (100 rows, all
required columns) but holds one duplicated (time, symbol) key; the four
left-merges multiply the duplicated rows, and the returned feature table
has 130 rows for 100 input rows. -/
theorem C8_counterexample_duplicate_keys :
    resultLength (extractFeatures dupBatch none) = 130 ∧ dupBatch.rows.length = 100 := by
  constructor
  · decide
  · decide

/-- C8, amended: for every valid batch whose (time, symbol) keys are
pairwise distinct, the feature table has exactly one row per input tick;
duplicated keys are multiplied by the left-merges instead. -/
theorem C8_row_count_preserved_distinct_keys :
    ∀ (b : TickBatch) (ohlc : Option (List OhlcRow)),
      validateTickData b = true → KeysDistinct b.rows →
      ∃ t, extractFeatures b ohlc = Except.ok t ∧ t.length = b.rows.length := by
  intro b ohlc hval hdist
  have hok : extractFeatures b ohlc = Except.ok (fillMissingValues
      ((familiesOf (prepareTickData b) ohlc).foldl mergeLeft
        (baseTable (prepareTickData b)))) := by
    rw [extractFeatures, if_pos hval]
  refine ⟨_, hok, ?_⟩
  have hKpw := keysDistinct_prepared b hdist
  obtain ⟨_, hlen⟩ := foldl_mergeLeft_keys (familiesOf (prepareTickData b) ohlc)
    (baseTable (prepareTickData b)) ((prepareTickData b).map keyP) hKpw
    (baseTable_keys _) (familiesOf_keys _ _)
  rw [fillMissingValues_length, hlen, List.length_map, prepareTickData_length]

set_option maxRecDepth 20000 in
/-- C8, witness: the distinct-key batch of 100 rows yields 100 feature
rows. -/
theorem C8_witness :
    (validateTickData distinctBatch = true ∧ KeysDistinct distinctBatch.rows) ∧
      ∃ t, extractFeatures distinctBatch none = Except.ok t ∧
        t.length = distinctBatch.rows.length :=
  ⟨⟨by decide, by unfold KeysDistinct; decide⟩,
    C8_row_count_preserved_distinct_keys distinctBatch none (by decide)
      (by unfold KeysDistinct; decide)⟩

/-- C7, witness: a two-tick window (a buy of volume 2, a sell of volume 3). -/
theorem C7_witness :
    ((∀ r ∈ [exWinRow1, exWinRow2], 0 ≤ r.volume) ∧
        (∀ r ∈ [exWinRow1, exWinRow2],
          r.direction = 1 ∨ r.direction = -1 ∨ r.direction = 0) ∧
        totalVolumeW [exWinRow1, exWinRow2] ≠ 0) ∧
      (buyPressureW [exWinRow1, exWinRow2] + sellPressureW [exWinRow1, exWinRow2] ≤ 1 ∧
        (buyPressureW [exWinRow1, exWinRow2] + sellPressureW [exWinRow1, exWinRow2] = 1 ↔
          ∀ r ∈ [exWinRow1, exWinRow2], r.volume ≠ 0 → r.direction ≠ 0)) :=
  ⟨⟨by decide, by decide,
      by norm_num [totalVolumeW, exWinRow1, exWinRow2, defaultPrep]⟩,
    C7_pressures_sum_bound_and_equality [exWinRow1, exWinRow2] (by decide) (by decide)
      (by norm_num [totalVolumeW, exWinRow1, exWinRow2, defaultPrep])⟩

/-! ### Permutation invariance (C10) -/

theorem sorted_time_unique :
    ∀ {l₁ l₂ : List RawRow}, List.Perm l₁ l₂ →
      l₁.Pairwise rawTimeLE → l₂.Pairwise rawTimeLE →
      l₁.Pairwise (fun a b => a.time ≠ b.time) → l₁ = l₂ := by
  intro l₁
  induction l₁ with
  | nil =>
      intro l₂ p _ _ _
      exact p.nil_eq
  | cons a t₁ ih =>
      intro l₂ p s₁ s₂ d
      cases l₂ with
      | nil =>
          have h := p.length_eq
          simp at h
      | cons b t₂ =>
          have hab : a = b := by
            by_contra hne
            have hbmem : b ∈ a :: t₁ := p.mem_iff.mpr (by simp)
            have hamem : a ∈ b :: t₂ := p.mem_iff.mp (by simp)
            have hb : b ∈ t₁ := by
              rcases List.mem_cons.mp hbmem with h | h
              · exact absurd h.symm hne
              · exact h
            have ha : a ∈ t₂ := by
              rcases List.mem_cons.mp hamem with h | h
              · exact absurd h hne
              · exact h
            have h₁ : rawTimeLE a b := (List.pairwise_cons.mp s₁).1 b hb
            have h₂ : rawTimeLE b a := (List.pairwise_cons.mp s₂).1 a ha
            exact (List.pairwise_cons.mp d).1 b hb (le_antisymm h₁ h₂)
          subst hab
          have p' : List.Perm t₁ t₂ := p.cons_inv
          rw [ih p' (List.pairwise_cons.mp s₁).2 (List.pairwise_cons.mp s₂).2
            (List.pairwise_cons.mp d).2]

/-- C10: two batches with the same columns whose rows are permutations of
each other and whose timestamps are pairwise distinct produce identical
feature tables: validation never rejects unsorted input (it only warns), and
`_prepare_tick_data` sorts by time before any feature is computed, so both
batches reach the pipeline as the same sorted frame. -/
theorem C10_permutation_invariance :
    ∀ (b₁ b₂ : TickBatch) (ohlc : Option (List OhlcRow)),
      b₁.cols = b₂.cols → List.Perm b₁.rows b₂.rows →
      b₁.rows.Pairwise (fun a c => a.time ≠ c.time) →
      extractFeatures b₁ ohlc = extractFeatures b₂ ohlc := by
  intro b₁ b₂ ohlc hcols hperm hdist
  have hsort : sortRawByTime b₁.rows = sortRawByTime b₂.rows := by
    have hp : List.Perm (sortRawByTime b₁.rows) (sortRawByTime b₂.rows) :=
      ((List.perm_insertionSort rawTimeLE b₁.rows).trans hperm).trans
        (List.perm_insertionSort rawTimeLE b₂.rows).symm
    have hd : (sortRawByTime b₁.rows).Pairwise (fun a c => a.time ≠ c.time) :=
      (List.Perm.pairwise_iff (fun h => Ne.symm h)
        (List.perm_insertionSort rawTimeLE b₁.rows)).mpr hdist
    exact sorted_time_unique hp (List.sorted_insertionSort rawTimeLE b₁.rows)
      (List.sorted_insertionSort rawTimeLE b₂.rows) hd
  have hval : validateTickData b₂ = validateTickData b₁ := by
    unfold validateTickData
    rw [← hcols, ← hperm.length_eq]
  have hprep : prepareTickData b₁ = prepareTickData b₂ := by
    unfold prepareTickData
    rw [hcols, hsort]
  rw [extractFeatures, extractFeatures, hval, hprep]

set_option maxRecDepth 20000 in
/-- C10, witness: the distinct-time batch and its reversal produce the same
feature table. -/
theorem C10_witness :
    (distinctBatch.cols = reversedBatch.cols ∧
        List.Perm distinctBatch.rows reversedBatch.rows ∧
        distinctBatch.rows.Pairwise (fun a c => a.time ≠ c.time)) ∧
      extractFeatures distinctBatch none = extractFeatures reversedBatch none :=
  ⟨⟨rfl, (List.reverse_perm ((List.range 100).map mkRawD)).symm, by decide⟩,
    C10_permutation_invariance distinctBatch reversedBatch none rfl
      ((List.reverse_perm ((List.range 100).map mkRawD)).symm) (by decide)⟩

end DS
